import Mathlib

/-!
Shallow embedding of the TaskManager repository (src/taskman/) in Lean 4.

Modelling conventions:
* `Process` (src/taskman/process.py) is a record of identifier, command,
  priority and creation time.  PID values are strings in the source, used
  only as unique keys with a total order (for the PID sort criterion); they
  are modelled as naturals carrying that order.  Creation timestamps
  (`datetime.now()`) are modelled as naturals.
* A Python `dict` preserves insertion order, so `ProcessStorage._storage`
  is modelled as an insertion-ordered association list `List (Nat × Proc)`;
  insertion of a fresh key appends, deletion filters the key out, and
  Python's `min(..., key=f)` returns the first element attaining the
  minimal key, modelled by `minByKey`.
* Methods that mutate `self` become functions returning the result code
  together with the new storage value.  Code that can raise an uncaught
  exception (`min()` over an empty dict raises `ValueError`, `del d[k]`
  for a missing key raises `KeyError`) returns `Option`, with `none`
  standing for the raised exception.
* `Process.kill()` invokes the bound callback when one is set.  The
  registry (`TaskManager`) always binds `TaskManager._process_kill_callback`,
  which removes the process from the storage.  The `wired` flag selects
  between a bound callback (`true`, the registry's configuration) and no
  callback (`false`).  Each storage operation also returns the list of PIDs
  whose `kill()` was invoked during the call, so termination side effects
  are observable.
-/

/-- Embedding of `ProcessPriority` (process.py): an `IntEnum` with
LOW = 0, MEDIUM = 1, HIGH = 2, compared by integer value. -/
inductive ProcessPriority where
  | LOW
  | MEDIUM
  | HIGH
deriving DecidableEq, Repr

/-- Integer value of a priority, as the `IntEnum` defines it. -/
def ProcessPriority.val : ProcessPriority → Nat
  | .LOW => 0
  | .MEDIUM => 1
  | .HIGH => 2

/-- Embedding of the `Process` class (process.py): pid, command, priority
and creation time.  The kill callback is not a field here; whether it is
bound is the `wired` parameter of the operations (see module docstring). -/
structure Proc where
  pid : Nat
  cmd : String
  priority : ProcessPriority
  created : Nat
deriving DecidableEq, Repr

/-- Embedding of `StorageOperationResult` (storage.py). -/
inductive StorageOperationResult where
  | OK
  | FAILED
  | FULL
  | REMOVED_OLDEST
  | REMOVED_LOWEST
deriving DecidableEq, Repr

/-- Embedding of `ProcessSortCriteria` (storage.py). -/
inductive ProcessSortCriteria where
  | TIME
  | PRIORITY
  | PID
deriving DecidableEq, Repr

/-- Embedding of `ProcessSortOrder` (storage.py). -/
inductive ProcessSortOrder where
  | ASC
  | DESC
deriving DecidableEq, Repr

/-- State of a `ProcessStorage` object (storage.py): the fixed capacity and
the insertion-ordered key/value pairs of the `_storage` dict. -/
structure ProcessStorage where
  capacity : Nat
  storage : List (Nat × Proc)
deriving DecidableEq, Repr

/-- A freshly constructed storage of the given capacity. -/
def ProcessStorage.empty (capacity : Nat) : ProcessStorage :=
  ⟨capacity, []⟩

/-- Embedding of Python's `min(iterable, key=f)` over a nonempty iterable:
the first element attaining the minimal key. -/
def minByKey (f : Nat × Proc → Nat) : Nat × Proc → List (Nat × Proc) → Nat × Proc
  | a, [] => a
  | a, b :: l => if f b < f a then minByKey f b l else minByKey f a l

/-- Embedding of `ProcessStorage.add` (storage.py lines 82-104): reject with
FULL when `len(self) >= self._capacity`, reject with FAILED when the pid is
already a key, otherwise insert (append, as dicts are insertion-ordered)
and return OK. -/
def ProcessStorage.add (s : ProcessStorage) (p : Proc) :
    StorageOperationResult × ProcessStorage :=
  if s.capacity ≤ s.storage.length then (.FULL, s)
  else if p.pid ∈ s.storage.map Prod.fst then (.FAILED, s)
  else (.OK, ⟨s.capacity, s.storage ++ [(p.pid, p)]⟩)

/-- Embedding of `ProcessStorage.remove` (storage.py lines 106-118): FAILED
when the pid is not a key, otherwise delete the entry and return OK. -/
def ProcessStorage.remove (s : ProcessStorage) (p : Proc) :
    StorageOperationResult × ProcessStorage :=
  if p.pid ∈ s.storage.map Prod.fst then
    (.OK, ⟨s.capacity, s.storage.filter (fun x => x.1 != p.pid)⟩)
  else (.FAILED, s)

/-- Effect of `process.kill()` (process.py lines 98-110) on a storage: when
the registry callback is bound (`wired = true`) it runs
`TaskManager._process_kill_callback`, i.e. `storage.remove(process)`
(manager.py lines 115-128); with no callback bound it does nothing. -/
def killEffect (wired : Bool) (s : ProcessStorage) (p : Proc) : ProcessStorage :=
  if wired then (ProcessStorage.remove s p).2 else s

/-- Embedding of `FIFOProcessStorage.add` (storage.py lines 176-208).
When the base add does not report FULL its result is passed through.
On FULL the oldest process (minimal `created`, Python `min` over the dict
keys) is killed — which removes it from the storage exactly when the
registry callback is wired — and the base add is retried; OK becomes
REMOVED_OLDEST, anything else becomes FAILED.  `none` models the
`ValueError` raised by `min()` when the dict is empty (capacity 0).
The third component lists the pids whose `kill()` was invoked. -/
def FIFOProcessStorage.add (wired : Bool) (s : ProcessStorage) (p : Proc) :
    Option (StorageOperationResult × ProcessStorage × List Nat) :=
  let r := ProcessStorage.add s p
  if r.1 ≠ .FULL then some (r.1, r.2, [])
  else
    match s.storage with
    | [] => none
    | kv :: rest =>
      let oldest := minByKey (fun x => x.2.created) kv rest
      let s2 := killEffect wired s oldest.2
      let r2 := ProcessStorage.add s2 p
      if r2.1 = .OK then some (.REMOVED_OLDEST, r2.2, [oldest.1])
      else some (.FAILED, r2.2, [oldest.1])

/-- Embedding of `PriorityProcessStorage.add` (storage.py lines 219-252).
When the base add does not report FULL its result is passed through.  On
FULL: find the minimal stored priority; if the new priority is not strictly
greater return FAILED unchanged; otherwise delete (`del`, without any
`kill()` call) the oldest process among those of minimal priority and retry
the base add; OK becomes REMOVED_LOWEST, and — as the source is written —
any other retry outcome is reported as OK.  `none` models the uncaught
`ValueError`/`KeyError` when the dict is empty or the victim pid is not a
key.  The third component lists the pids whose `kill()` was invoked (always
empty: this implementation never kills the victim). -/
def PriorityProcessStorage.add (s : ProcessStorage) (p : Proc) :
    Option (StorageOperationResult × ProcessStorage × List Nat) :=
  let r := ProcessStorage.add s p
  if r.1 ≠ .FULL then some (r.1, r.2, [])
  else
    match s.storage with
    | [] => none
    | kv :: rest =>
      let keyLowest := minByKey (fun x => x.2.priority.val) kv rest
      let lowestPriority := keyLowest.2.priority
      if p.priority.val ≤ lowestPriority.val then some (.FAILED, s, [])
      else
        match s.storage.filter (fun x => x.2.priority.val == lowestPriority.val) with
        | [] => none
        | a :: l =>
          let oldestAmongLowest := minByKey (fun x => x.2.created) a l
          if oldestAmongLowest.2.pid ∈ s.storage.map Prod.fst then
            let s2 : ProcessStorage :=
              ⟨s.capacity, s.storage.filter (fun x => x.1 != oldestAmongLowest.2.pid)⟩
            let r2 := ProcessStorage.add s2 p
            if r2.1 = .OK then some (.REMOVED_LOWEST, r2.2, [])
            else some (.OK, r2.2, [])
          else none

/-- The three storage policies of the repository. -/
inductive Policy where
  | base
  | fifo
  | priority
deriving DecidableEq, Repr

/-- Add under the policy selected at construction time.  The base policy
never raises, so it is wrapped in `some`; its kill list is empty. -/
def policyAdd (pol : Policy) (wired : Bool) (s : ProcessStorage) (p : Proc) :
    Option (StorageOperationResult × ProcessStorage × List Nat) :=
  match pol with
  | .base => some ((ProcessStorage.add s p).1, (ProcessStorage.add s p).2, [])
  | .fifo => FIFOProcessStorage.add wired s p
  | .priority => PriorityProcessStorage.add s p

/-- One storage call of a client-visible sequence: an `add` or a `remove`. -/
inductive StorageOp where
  | add (p : Proc)
  | rem (p : Proc)
deriving DecidableEq, Repr

/-- State after one storage call.  When the call raises (the `none` cases)
the exception propagates before any mutation, so the state is unchanged. -/
def applyOp (pol : Policy) (wired : Bool) (s : ProcessStorage) : StorageOp → ProcessStorage
  | .add p =>
    match policyAdd pol wired s p with
    | some (_, s', _) => s'
    | none => s
  | .rem p => (ProcessStorage.remove s p).2

/-- State after a sequence of storage calls. -/
def runOps (pol : Policy) (wired : Bool) (s : ProcessStorage)
    (ops : List StorageOp) : ProcessStorage :=
  ops.foldl (applyOp pol wired) s

/-- Embedding of `TaskManager.add` (manager.py lines 29-51) over a storage
of the given policy.  `proc` stands for the `Process` just constructed from
a fresh generated PID, with the kill callback bound before the storage add
(so the storage runs wired).  Exactly when the storage add returns FAILED
the manager kills the new process (whose callback removes it from storage,
a no-op returning FAILED if it was never admitted) and returns `none`;
every other result returns the process handle. -/
def TaskManager.add (pol : Policy) (s : ProcessStorage) (proc : Proc) :
    Option (Option Proc × ProcessStorage × List Nat) :=
  match policyAdd pol true s proc with
  | none => none
  | some (r, s', killed) =>
    if r = .FAILED then
      some (none, (ProcessStorage.remove s' proc).2, killed ++ [proc.pid])
    else
      some (some proc, s', killed)

/-- The records currently stored, in dict (insertion) order — the list the
source's `ProcessStorage.list` builds before sorting. -/
def ProcessStorage.values (s : ProcessStorage) : List Proc :=
  s.storage.map Prod.snd

/-- Sort key used by `ProcessStorage.list` for each criterion
(storage.py lines 136-142): `created`, `priority` or `pid.value`. -/
def sortKey : ProcessSortCriteria → Proc → Nat
  | .TIME, p => p.created
  | .PRIORITY, p => p.priority.val
  | .PID, p => p.pid

/-- Embedding of `is_desc_order = True if order == DESC else False`. -/
def ProcessSortOrder.isDesc : ProcessSortOrder → Bool
  | .ASC => false
  | .DESC => true

/-- The ordering realised by Python's stable `list.sort(key, reverse)`:
strictly smaller key first (strictly larger when `desc`), and among equal
keys the original position decides.  Stated on position-tagged elements. -/
def pyLe (key : Proc → Nat) (desc : Bool) (a b : Nat × Proc) : Prop :=
  (key a.2 = key b.2 ∧ a.1 ≤ b.1) ∨
  (desc = false ∧ key a.2 < key b.2) ∨
  (desc = true ∧ key b.2 < key a.2)

instance (key : Proc → Nat) (desc : Bool) : DecidableRel (pyLe key desc) :=
  fun a b => by unfold pyLe; infer_instance

instance (key : Proc → Nat) (desc : Bool) : IsTotal (Nat × Proc) (pyLe key desc) := by
  constructor
  intro a b
  unfold pyLe
  cases desc <;> simp <;> omega

instance (key : Proc → Nat) (desc : Bool) : IsTrans (Nat × Proc) (pyLe key desc) := by
  constructor
  intro a b c hab hbc
  unfold pyLe at *
  cases desc <;> simp at * <;> omega

/-- Embedding of `ProcessStorage.list` (storage.py lines 120-144) before
the position tags are dropped: the dict values are enumerated in insertion
order and stably sorted by the selected key and direction.  Python's
`list.sort` is Timsort, stable also under `reverse=True`; this is exactly
sorting the position-tagged values by `pyLe`. -/
def ProcessStorage.listEnum (s : ProcessStorage) (criteria : ProcessSortCriteria)
    (order : ProcessSortOrder) : List (Nat × Proc) :=
  (s.values.enum).insertionSort (pyLe (sortKey criteria) order.isDesc)

/-- Embedding of `ProcessStorage.list` (storage.py lines 120-144): the
stably sorted records. -/
def ProcessStorage.list (s : ProcessStorage) (criteria : ProcessSortCriteria)
    (order : ProcessSortOrder) : List Proc :=
  (s.listEnum criteria order).map Prod.snd

/-- Key ordering that `list` is required to realise: ascending or
descending in the selected sort key. -/
def keyOrder (criteria : ProcessSortCriteria) (order : ProcessSortOrder)
    (a b : Proc) : Prop :=
  match order with
  | .ASC => sortKey criteria a ≤ sortKey criteria b
  | .DESC => sortKey criteria b ≤ sortKey criteria a

/-- Storage state reached from an empty FIFO storage of capacity `C` after
adding the first `i` processes of `ps` (registry wiring in place). -/
def fifoState (C : Nat) (ps : List Proc) (i : Nat) : ProcessStorage :=
  runOps .fifo true (ProcessStorage.empty C) ((ps.take i).map StorageOp.add)

/-- Fixture: a LOW-priority process, pid 1, created at t = 1. -/
def pLow1 : Proc := ⟨1, "cmd-a", .LOW, 1⟩

/-- Fixture: a LOW-priority process, pid 2, created at t = 2. -/
def pLow2 : Proc := ⟨2, "cmd-b", .LOW, 2⟩

/-- Fixture: a MEDIUM-priority process, pid 3, created at t = 3. -/
def pMed3 : Proc := ⟨3, "cmd-c", .MEDIUM, 3⟩

/-- Fixture: a MEDIUM-priority process, pid 2, created at t = 2. -/
def pMed2 : Proc := ⟨2, "cmd-b", .MEDIUM, 2⟩

/-- Fixture: a HIGH-priority process whose pid 2 duplicates `pMed2`. -/
def pHighDup2 : Proc := ⟨2, "cmd-d", .HIGH, 3⟩

/-- Fixture: a HIGH-priority process, pid 1, created at t = 1. -/
def pHigh1 : Proc := ⟨1, "cmd-h", .HIGH, 1⟩

/-- Fixture: a HIGH-priority process, pid 2, created at t = 2. -/
def pHigh2 : Proc := ⟨2, "cmd-i", .HIGH, 2⟩

/-- Fixture: a LOW-priority process, pid 9, created at t = 9. -/
def pLow9 : Proc := ⟨9, "cmd-l", .LOW, 9⟩

/-- Fixture: a second process with the same pid 1 as `pLow1`. -/
def pLow1b : Proc := ⟨1, "cmd-a2", .LOW, 5⟩

/-! ## Helper lemmas -/

/-- Python's `min` returns an element of its iterable. -/
theorem minByKey_mem (f : Nat × Proc → Nat) (a : Nat × Proc) (l : List (Nat × Proc)) :
    minByKey f a l ∈ a :: l := by
  induction l generalizing a with
  | nil => simp [minByKey]
  | cons b l ih =>
    simp only [minByKey]
    split
    · have := ih b
      simp only [List.mem_cons] at this ⊢
      tauto
    · have := ih a
      simp only [List.mem_cons] at this ⊢
      tauto

/-- Python's `min` attains the minimal key. -/
theorem minByKey_le (f : Nat × Proc → Nat) (a : Nat × Proc) (l : List (Nat × Proc)) :
    ∀ x ∈ a :: l, f (minByKey f a l) ≤ f x := by
  induction l generalizing a with
  | nil =>
    intro x hx
    simp only [List.mem_cons, List.not_mem_nil, or_false] at hx
    subst hx
    simp [minByKey]
  | cons b l ih =>
    intro x hx
    simp only [List.mem_cons] at hx
    simp only [minByKey]
    by_cases hba : f b < f a
    · rw [if_pos hba]
      rcases hx with rfl | rfl | hx
      · exact le_trans (ih b b (by simp)) (le_of_lt hba)
      · exact ih x x (by simp)
      · exact ih b x (by simp [hx])
    · rw [if_neg hba]
      push_neg at hba
      rcases hx with rfl | rfl | hx
      · exact ih x x (by simp)
      · exact le_trans (ih a a (by simp)) hba
      · exact ih a x (by simp [hx])

/-- Deleting a key that is not present leaves the association list as is. -/
theorem filter_ne_key_of_not_mem {l : List (Nat × Proc)} {k : Nat}
    (h : k ∉ l.map Prod.fst) : l.filter (fun x => x.1 != k) = l := by
  induction l with
  | nil => rfl
  | cons a l ih =>
    simp only [List.map_cons, List.mem_cons] at h
    push_neg at h
    simp [List.filter_cons, bne_iff_ne, Ne.symm h.1, ih h.2]

/-- Deleting a present key from an association list with unique keys
removes exactly one entry. -/
theorem filter_ne_key_length {l : List (Nat × Proc)} {k : Nat}
    (hnd : (l.map Prod.fst).Nodup) (hk : k ∈ l.map Prod.fst) :
    (l.filter (fun x => x.1 != k)).length + 1 = l.length := by
  induction l with
  | nil => simp at hk
  | cons a l ih =>
    simp only [List.map_cons, List.nodup_cons] at hnd
    simp only [List.map_cons, List.mem_cons] at hk
    rcases hk with hk | hk
    · subst hk
      simp [List.filter_cons, filter_ne_key_of_not_mem hnd.1]
    · have hne : a.1 ≠ k := by
        rintro rfl
        exact hnd.1 hk
      simp [List.filter_cons, bne_iff_ne, hne, ih hnd.2 hk]

/-! ## Claim theorems -/

/-- C3: at the spec's own test scenario — capacity 2 holding LOW(t=1) and
LOW(t=2), adding a MEDIUM record — the priority policy selects the oldest
record of the lowest-priority group as victim, removes it from the mapping,
stores the new record and returns the replacement outcome (the source's
name for REPLACED_LOWEST is REMOVED_LOWEST); but the kill list is empty:
`PriorityProcessStorage.add` only executes `del self._storage[pid]` and
never invokes the victim's `kill()`/termination handler, contradicting the
claim, the spec ("Terminate and remove the victim") and the class's own
docstring ("the oldest ... will be removed and killed"). -/
theorem priority_eviction_without_kill_eval :
    PriorityProcessStorage.add ⟨2, [(1, pLow1), (2, pLow2)]⟩ pMed3 =
      some (.REMOVED_LOWEST, ⟨2, [(2, pLow2), (3, pMed3)]⟩, []) := by
  rfl

/-- C7: failing input for the priority policy.  Capacity 2 holds
LOW(pid 1, t=1) and MEDIUM(pid 2, t=2); adding HIGH with the duplicate
pid 2 makes the base add report FULL, the policy evict pid 1, and the
retried base add fail on the duplicate key — and the source then returns
OK (storage.py line 252) although nothing was stored, instead of the
FAILED required by the claim and by the sibling FIFO implementation. -/
theorem priority_retry_failure_returns_ok_eval :
    PriorityProcessStorage.add ⟨2, [(1, pLow1), (2, pMed2)]⟩ pHighDup2 =
      some (.OK, ⟨2, [(2, pMed2)]⟩, []) := by
  rfl

/-- C9: failing input for the registry facade.  On a full base storage the
storage add returns FULL, and `TaskManager.add` (manager.py lines 41-51)
only checks for FAILED: it returns the live `Process` handle to its caller,
does not kill the just-constructed record, and the record was never stored
— contradicting the claim and the method's own docstring ("Instance of
`Process` class on success, None otherwise"). -/
theorem manager_add_full_returns_live_handle_eval :
    TaskManager.add .base (ProcessStorage.empty 0) pLow1 =
      some (some pLow1, ProcessStorage.empty 0, []) := by
  rfl

/-- C8 counterexample: an add to an empty eviction-policy storage of
capacity 0 does not return an outcome: the base add reports FULL and
`min()` over the empty dict raises `ValueError` (modelled by `none`),
for both the FIFO and the priority policy. -/
theorem capacity_zero_eviction_add_faults_cex :
    FIFOProcessStorage.add true (ProcessStorage.empty 0) pLow1 = none ∧
    FIFOProcessStorage.add false (ProcessStorage.empty 0) pLow1 = none ∧
    PriorityProcessStorage.add (ProcessStorage.empty 0) pLow1 = none := by
  exact ⟨rfl, rfl, rfl⟩

/-- C5 counterexample: on a FULL fifo storage the duplicate check is never
reached (storage.py checks capacity before key membership), so adding a
record whose pid is already stored in a full FIFO storage of capacity 1
evicts and kills the original and returns REMOVED_OLDEST — not FAILED, and
the stored set changes. -/
theorem duplicate_at_full_not_failed_cex :
    FIFOProcessStorage.add true ⟨1, [(1, pLow1)]⟩ pLow1b =
      some (.REMOVED_OLDEST, ⟨1, [(1, pLow1b)]⟩, [1]) ∧
    StorageOperationResult.REMOVED_OLDEST ≠ StorageOperationResult.FAILED := by
  exact ⟨rfl, by decide⟩

/-- C4: when a priority storage is full (and nonempty, as any full storage
of positive capacity is) and the new record's priority is less than or
equal to every stored priority, `add` returns FAILED, the stored set is
completely unchanged, and no kill is invoked. -/
theorem priority_add_rejects_not_higher (s : ProcessStorage) (p : Proc)
    (hfull : s.capacity ≤ s.storage.length) (hne : s.storage ≠ [])
    (hle : ∀ kv ∈ s.storage, p.priority.val ≤ kv.2.priority.val) :
    PriorityProcessStorage.add s p = some (.FAILED, s, []) := by
  obtain ⟨cap, store⟩ := s
  cases store with
  | nil => exact absurd rfl hne
  | cons kv rest =>
    have hmem := minByKey_mem (fun x => x.2.priority.val) kv rest
    have hple := hle _ hmem
    have hfull' : cap ≤ rest.length + 1 := by simpa using hfull
    simp [PriorityProcessStorage.add, ProcessStorage.add, hfull', hple]

/-- Witness for C4: capacity 1 holding HIGH(pid 1, t=1); adding another
HIGH record and adding a LOW record both return FAILED with the storage
untouched. -/
theorem priority_add_rejects_not_higher_witness :
    PriorityProcessStorage.add ⟨1, [(1, pHigh1)]⟩ pHigh2 =
      some (.FAILED, ⟨1, [(1, pHigh1)]⟩, []) ∧
    PriorityProcessStorage.add ⟨1, [(1, pHigh1)]⟩ pLow9 =
      some (.FAILED, ⟨1, [(1, pHigh1)]⟩, []) := by
  constructor
  · exact priority_add_rejects_not_higher _ _ (by decide) (by decide) (by decide)
  · exact priority_add_rejects_not_higher _ _ (by decide) (by decide) (by decide)

/-- The base add reports FULL exactly when the size has reached capacity. -/
theorem add_full_iff (s : ProcessStorage) (p : Proc) :
    (ProcessStorage.add s p).1 = .FULL ↔ s.capacity ≤ s.storage.length := by
  unfold ProcessStorage.add
  split_ifs <;> simp_all

/-- Base add on a full storage: FULL, no mutation. -/
theorem add_of_full {s : ProcessStorage} (p : Proc)
    (h : s.capacity ≤ s.storage.length) :
    ProcessStorage.add s p = (.FULL, s) := by
  unfold ProcessStorage.add
  rw [if_pos h]

/-- Base add under capacity on a duplicate key: FAILED, no mutation. -/
theorem add_of_dup {s : ProcessStorage} {p : Proc}
    (h1 : s.storage.length < s.capacity) (h2 : p.pid ∈ s.storage.map Prod.fst) :
    ProcessStorage.add s p = (.FAILED, s) := by
  unfold ProcessStorage.add
  rw [if_neg (not_le.2 h1), if_pos h2]

/-- Base add under capacity on a fresh key: OK, entry appended. -/
theorem add_of_fresh {s : ProcessStorage} {p : Proc}
    (h1 : s.storage.length < s.capacity) (h2 : p.pid ∉ s.storage.map Prod.fst) :
    ProcessStorage.add s p = (.OK, ⟨s.capacity, s.storage ++ [(p.pid, p)]⟩) := by
  unfold ProcessStorage.add
  rw [if_neg (not_le.2 h1), if_neg h2]

/-- C6: the eviction policies never return FULL: whatever the storage state
and the record, a FIFO or priority `add` that returns at all returns
something other than FULL (a pass-through OK/FAILED, a replacement
outcome, or the failure/ok of the retry branch). -/
theorem eviction_add_never_full (wired : Bool) (s : ProcessStorage) (p : Proc)
    (out : StorageOperationResult × ProcessStorage × List Nat) :
    (FIFOProcessStorage.add wired s p = some out → out.1 ≠ .FULL) ∧
    (PriorityProcessStorage.add s p = some out → out.1 ≠ .FULL) := by
  constructor
  · intro h
    simp only [FIFOProcessStorage.add] at h
    split at h
    · rename_i hne
      injection h with h2
      subst h2
      simpa using hne
    · split at h
      · exact absurd h (by simp)
      · split at h <;>
          (injection h with h2; subst h2; simp)
  · intro h
    simp only [PriorityProcessStorage.add] at h
    split at h
    · rename_i hne
      injection h with h2
      subst h2
      simpa using hne
    · split at h
      · exact absurd h (by simp)
      · split at h
        · injection h with h2
          subst h2
          simp
        · split at h
          · exact absurd h (by simp)
          · split at h
            · split at h <;>
                (injection h with h2; subst h2; simp)
            · exact absurd h (by simp)

/-- C8 (amended): on any storage of capacity at least 1 whose keys satisfy
the mapping invariant (every key equals its record's pid — which holds in
every reachable state), every `add` of every policy returns an outcome and
never faults: the base add is total outright, and when an eviction policy
sees FULL the storage is necessarily nonempty so victim selection and
deletion succeed. -/
theorem eviction_add_total (wired : Bool) (s : ProcessStorage) (p : Proc)
    (hcap : 1 ≤ s.capacity) (hcons : ∀ kv ∈ s.storage, kv.1 = kv.2.pid) :
    (FIFOProcessStorage.add wired s p).isSome ∧
    (PriorityProcessStorage.add s p).isSome := by
  have hne : (ProcessStorage.add s p).1 = .FULL → s.storage ≠ [] := by
    intro hfull hnil
    have := (add_full_iff s p).1 hfull
    rw [hnil] at this
    simp at this
    omega
  constructor
  · simp only [FIFOProcessStorage.add]
    split
    · simp
    · rename_i hfull
      push_neg at hfull
      split
      · rename_i heq
        exact absurd heq (hne hfull)
      · split <;> simp
  · simp only [PriorityProcessStorage.add]
    split
    · simp
    · rename_i hfull
      push_neg at hfull
      split
      · rename_i heq
        exact absurd heq (hne hfull)
      · rename_i kv rest heq
        split
        · simp
        · split
          · rename_i hfil
            have hmem := minByKey_mem (fun x => x.2.priority.val) kv rest
            rw [← heq] at hmem
            have : minByKey (fun x => x.2.priority.val) kv rest ∈
                s.storage.filter (fun x => x.2.priority.val ==
                  (minByKey (fun x => x.2.priority.val) kv rest).2.priority.val) := by
              rw [List.mem_filter]
              exact ⟨hmem, by simp⟩
            rw [hfil] at this
            simp at this
          · rename_i a l hfil
            have hsub : ∀ x ∈ a :: l, x ∈ s.storage := by
              intro x hx
              rw [← hfil] at hx
              exact (List.mem_filter.1 hx).1
            have hvm := minByKey_mem (fun x => x.2.created) a l
            have hvs := hsub _ hvm
            have hkey := hcons _ hvs
            have hin : (minByKey (fun x => x.2.created) a l).2.pid ∈
                s.storage.map Prod.fst := by
              rw [← hkey]
              exact List.mem_map.2 ⟨_, hvs, rfl⟩
            rw [if_pos hin]
            split <;> simp

/-- Witness for C8 (amended): a full FIFO storage and a full priority
storage of capacity 1 both return an outcome on add. -/
theorem eviction_add_total_witness :
    (FIFOProcessStorage.add true ⟨1, [(1, pLow1)]⟩ pLow2).isSome ∧
    (PriorityProcessStorage.add ⟨1, [(1, pLow1)]⟩ pLow2).isSome :=
  eviction_add_total true ⟨1, [(1, pLow1)]⟩ pLow2 (by decide) (by decide)

/-- Witness for C6: on an empty FIFO storage of capacity 1 the add returns
OK, which is not FULL; same state for the priority policy. -/
theorem eviction_add_never_full_witness :
    (StorageOperationResult.OK,
      (⟨1, [(1, pLow1)]⟩ : ProcessStorage), ([] : List Nat)).1 ≠
      StorageOperationResult.FULL :=
  (eviction_add_never_full true (ProcessStorage.empty 1) pLow1 _).1 (by rfl)

/-- C5 (amended): for every storage policy, in every state that is below
capacity, adding a record whose identifier is already stored returns FAILED
and leaves the stored set unchanged, with no eviction and no kill.  (When
the storage is additionally full, the capacity check of the base add fires
first and the duplicate is never detected — see the counterexample.) -/
theorem duplicate_rejected_when_not_full (pol : Policy) (wired : Bool)
    (s : ProcessStorage) (p : Proc)
    (hroom : s.storage.length < s.capacity)
    (hdup : p.pid ∈ s.storage.map Prod.fst) :
    policyAdd pol wired s p = some (.FAILED, s, []) := by
  have hadd : ProcessStorage.add s p = (.FAILED, s) := add_of_dup hroom hdup
  cases pol with
  | base => simp [policyAdd, hadd]
  | fifo => simp [policyAdd, FIFOProcessStorage.add, hadd]
  | priority => simp [policyAdd, PriorityProcessStorage.add, hadd]

/-- Witness for C5 (amended): capacity 2 holding pid 1; adding a second
record with pid 1 under each of the three policies returns FAILED and
leaves the storage unchanged. -/
theorem duplicate_rejected_when_not_full_witness :
    policyAdd .base true ⟨2, [(1, pLow1)]⟩ pLow1b =
      some (.FAILED, ⟨2, [(1, pLow1)]⟩, []) ∧
    policyAdd .fifo true ⟨2, [(1, pLow1)]⟩ pLow1b =
      some (.FAILED, ⟨2, [(1, pLow1)]⟩, []) ∧
    policyAdd .priority true ⟨2, [(1, pLow1)]⟩ pLow1b =
      some (.FAILED, ⟨2, [(1, pLow1)]⟩, []) :=
  ⟨duplicate_rejected_when_not_full .base true _ _ (by decide) (by decide),
   duplicate_rejected_when_not_full .fifo true _ _ (by decide) (by decide),
   duplicate_rejected_when_not_full .priority true _ _ (by decide) (by decide)⟩

/-- The base add never changes the capacity. -/
theorem add_capacity (s : ProcessStorage) (p : Proc) :
    ((ProcessStorage.add s p).2).capacity = s.capacity := by
  unfold ProcessStorage.add
  split_ifs <;> rfl

/-- The base add keeps the size within capacity: it inserts only below
capacity and otherwise leaves the storage unchanged. -/
theorem add_length_le (s : ProcessStorage) (p : Proc)
    (h : s.storage.length ≤ s.capacity) :
    ((ProcessStorage.add s p).2).storage.length ≤ s.capacity := by
  unfold ProcessStorage.add
  split_ifs with h1 h2 <;> simp <;> omega

/-- Removal never changes the capacity. -/
theorem remove_capacity (s : ProcessStorage) (p : Proc) :
    ((ProcessStorage.remove s p).2).capacity = s.capacity := by
  unfold ProcessStorage.remove
  split_ifs <;> rfl

/-- Removal never increases the size. -/
theorem remove_length_le (s : ProcessStorage) (p : Proc) :
    ((ProcessStorage.remove s p).2).storage.length ≤ s.storage.length := by
  unfold ProcessStorage.remove
  split_ifs <;> simp [List.length_filter_le]

/-- A kill never changes the capacity of the wired storage. -/
theorem killEffect_capacity (wired : Bool) (s : ProcessStorage) (p : Proc) :
    (killEffect wired s p).capacity = s.capacity := by
  unfold killEffect
  split_ifs with h
  · exact remove_capacity s p
  · rfl

/-- A kill never increases the size of the wired storage. -/
theorem killEffect_length_le (wired : Bool) (s : ProcessStorage) (p : Proc) :
    (killEffect wired s p).storage.length ≤ s.storage.length := by
  unfold killEffect
  split_ifs with h
  · exact remove_length_le s p
  · exact le_rfl

/-- Every policy add that returns preserves the capacity and keeps the
size within it. -/
theorem policyAdd_state (pol : Policy) (wired : Bool) (s : ProcessStorage)
    (p : Proc) (out : StorageOperationResult × ProcessStorage × List Nat)
    (h : s.storage.length ≤ s.capacity)
    (hout : policyAdd pol wired s p = some out) :
    out.2.1.capacity = s.capacity ∧ out.2.1.storage.length ≤ s.capacity := by
  cases pol with
  | base =>
    simp only [policyAdd] at hout
    injection hout with h2
    subst h2
    exact ⟨add_capacity s p, add_length_le s p h⟩
  | fifo =>
    simp only [policyAdd, FIFOProcessStorage.add] at hout
    split at hout
    · injection hout with h2
      subst h2
      exact ⟨add_capacity s p, add_length_le s p h⟩
    · split at hout
      · exact absurd hout (by simp)
      · rename_i kv rest heq
        have hc2 := killEffect_capacity wired s (minByKey (fun x => x.2.created) kv rest).2
        have hl2 := killEffect_length_le wired s (minByKey (fun x => x.2.created) kv rest).2
        have hle2 : (killEffect wired s (minByKey (fun x => x.2.created) kv rest).2).storage.length ≤
            (killEffect wired s (minByKey (fun x => x.2.created) kv rest).2).capacity := by
          rw [hc2]
          exact le_trans hl2 h
        split at hout <;>
          (injection hout with h2
           subst h2
           refine ⟨by rw [add_capacity, hc2], ?_⟩
           have := add_length_le _ p hle2
           rwa [hc2] at this)
  | priority =>
    simp only [policyAdd, PriorityProcessStorage.add] at hout
    split at hout
    · injection hout with h2
      subst h2
      exact ⟨add_capacity s p, add_length_le s p h⟩
    · split at hout
      · exact absurd hout (by simp)
      · split at hout
        · injection hout with h2
          subst h2
          exact ⟨rfl, h⟩
        · split at hout
          · exact absurd hout (by simp)
          · rename_i a l hfil
            split at hout
            · have hle2 : (⟨s.capacity, s.storage.filter
                  (fun x => x.1 != (minByKey (fun x => x.2.created) a l).2.pid)⟩ :
                    ProcessStorage).storage.length ≤ s.capacity :=
                le_trans (List.length_filter_le _ _) h
              split at hout <;>
                (injection hout with h2
                 subst h2
                 have := add_length_le _ p hle2
                 exact ⟨by simp [add_capacity], by simpa using this⟩)
            · exact absurd hout (by simp)

/-- One storage call preserves the capacity and keeps the size within it. -/
theorem applyOp_state (pol : Policy) (wired : Bool) (s : ProcessStorage)
    (op : StorageOp) (h : s.storage.length ≤ s.capacity) :
    (applyOp pol wired s op).capacity = s.capacity ∧
    (applyOp pol wired s op).storage.length ≤ s.capacity := by
  cases op with
  | add p =>
    simp only [applyOp]
    split
    · rename_i r s2 killed heq
      exact policyAdd_state pol wired s p (r, s2, killed) h heq
    · exact ⟨rfl, h⟩
  | rem p =>
    exact ⟨remove_capacity s p, le_trans (remove_length_le s p) h⟩

/-- A sequence of storage calls preserves the capacity and keeps the size
within it. -/
theorem runOps_state (pol : Policy) (wired : Bool) (ops : List StorageOp) :
    ∀ s : ProcessStorage, s.storage.length ≤ s.capacity →
      (runOps pol wired s ops).capacity = s.capacity ∧
      (runOps pol wired s ops).storage.length ≤ s.capacity := by
  induction ops with
  | nil => exact fun s h => ⟨rfl, h⟩
  | cons op ops ih =>
    intro s h
    have h1 := applyOp_state pol wired s op h
    have h2 := ih (applyOp pol wired s op) (by rw [h1.1]; exact h1.2)
    simp only [runOps, List.foldl_cons] at *
    exact ⟨h2.1.trans h1.1, by rw [← h1.1]; exact h2.2⟩

/-- C1: for every storage policy, every capacity `C`, and every sequence
of add and remove calls starting from the empty storage of capacity `C`
(and with or without the registry's kill-callback wiring), the stored size
is at most `C` after every call (`ops.take n` being the calls executed so
far).  Each call is a single atomic transition of the embedding, and by
`policyAdd_state` even the evict-then-insert states inside an eviction stay
within `C`. -/
theorem capacity_invariant (pol : Policy) (wired : Bool) (C : Nat)
    (ops : List StorageOp) (n : Nat) :
    (runOps pol wired (ProcessStorage.empty C) (ops.take n)).storage.length ≤ C := by
  have h := runOps_state pol wired (ops.take n) (ProcessStorage.empty C)
    (by simp [ProcessStorage.empty])
  simpa [ProcessStorage.empty] using h.2

/-- The stable-sort ordering respects the requested key direction. -/
theorem pyLe_keyOrder {criteria : ProcessSortCriteria} {order : ProcessSortOrder}
    {a b : Nat × Proc} (h : pyLe (sortKey criteria) order.isDesc a b) :
    keyOrder criteria order a.2 b.2 := by
  cases order <;>
    (simp only [ProcessSortOrder.isDesc, pyLe] at h
     simp only [keyOrder]
     simp at h
     omega)

/-- The stable-sort ordering keeps equal keys in enumeration order. -/
theorem pyLe_stable {key : Proc → Nat} {desc : Bool} {a b : Nat × Proc}
    (h : pyLe key desc a b) (hk : key a.2 = key b.2) : a.1 ≤ b.1 := by
  unfold pyLe at h
  rcases h with ⟨_, h⟩ | ⟨_, h⟩ | ⟨_, h⟩ <;> omega

/-- C10: for every storage state, `list(criteria, order)` returns exactly
the currently stored records (a permutation of the dict values), sorted by
the selected key in the selected direction; the sort is stable — the
position-tagged intermediate list is a permutation of the enumerated
values, and any two entries with equal sort keys stay in enumeration
order; and `list` is a pure function of the state (it mutates nothing), so
two calls without an intervening mutation return identical sequences. -/
theorem list_sorted_stable_complete (s : ProcessStorage)
    (criteria : ProcessSortCriteria) (order : ProcessSortOrder) :
    (ProcessStorage.list s criteria order).Perm (ProcessStorage.values s) ∧
    List.Sorted (keyOrder criteria order) (ProcessStorage.list s criteria order) ∧
    (ProcessStorage.listEnum s criteria order).Perm ((ProcessStorage.values s).enum) ∧
    List.Pairwise
      (fun a b => sortKey criteria a.2 = sortKey criteria b.2 → a.1 ≤ b.1)
      (ProcessStorage.listEnum s criteria order) ∧
    ProcessStorage.list s criteria order = ProcessStorage.list s criteria order := by
  have hperm : (ProcessStorage.listEnum s criteria order).Perm
      ((ProcessStorage.values s).enum) :=
    List.perm_insertionSort _ _
  have hsorted : List.Sorted (pyLe (sortKey criteria) order.isDesc)
      (ProcessStorage.listEnum s criteria order) :=
    List.sorted_insertionSort _ _
  refine ⟨?_, ?_, hperm, ?_, rfl⟩
  · have := hperm.map Prod.snd
    rwa [List.enum_map_snd] at this
  · unfold ProcessStorage.list
    rw [List.Sorted, List.pairwise_map]
    exact hsorted.imp (fun h => pyLe_keyOrder h)
  · exact hsorted.imp (fun h hk => pyLe_stable h hk)

/-- In a duplicate-free list an element does not occur before its
position. -/
theorem nodup_getElem_not_mem_take {l : List Nat} (hnd : l.Nodup)
    {i : Nat} (hi : i < l.length) : l[i] ∉ l.take i := by
  intro hmem
  obtain ⟨j, hj, hje⟩ := List.mem_iff_getElem.1 hmem
  have hjl : j < i := by
    simp [List.length_take] at hj
    omega
  have hjl2 : j < l.length := by omega
  rw [List.getElem_take] at hje
  have := (List.Nodup.getElem_inj_iff hnd).1 hje
  omega

/-- Unfolding of the FIFO run: the state after `i + 1` adds is one add
applied to the state after `i` adds. -/
theorem fifoState_succ (C : Nat) (ps : List Proc) (i : Nat)
    (hi : i < ps.length) :
    fifoState C ps (i + 1) = applyOp .fifo true (fifoState C ps i) (.add ps[i]) := by
  unfold fifoState runOps
  rw [List.take_succ, List.getElem?_eq_getElem hi]
  simp only [Option.toList_some, List.map_append, List.foldl_append, List.map_cons,
    List.map_nil, List.foldl_cons, List.foldl_nil]

/-- FIFO add below capacity with a fresh pid: plain insertion. -/
theorem fifoAdd_pass (wired : Bool) (s : ProcessStorage) (p : Proc)
    (h1 : s.storage.length < s.capacity) (h2 : p.pid ∉ s.storage.map Prod.fst) :
    FIFOProcessStorage.add wired s p =
      some (.OK, ⟨s.capacity, s.storage ++ [(p.pid, p)]⟩, []) := by
  have hadd := add_of_fresh h1 h2
  simp [FIFOProcessStorage.add, hadd]

/-- C2 single step: a wired FIFO add on a full storage (consistent keys,
no duplicate keys, fresh pid) kills exactly the first stored record of
minimal creation time, removes it, appends the new record and returns
REMOVED_OLDEST, with the size staying at capacity. -/
theorem fifoAdd_full_step (s : ProcessStorage) (p : Proc)
    (hcap : 1 ≤ s.capacity) (hfull : s.storage.length = s.capacity)
    (hcons : ∀ kv ∈ s.storage, kv.1 = kv.2.pid)
    (hnd : (s.storage.map Prod.fst).Nodup)
    (hfresh : p.pid ∉ s.storage.map Prod.fst) :
    ∃ v ∈ s.storage,
      (∀ x ∈ s.storage, v.2.created ≤ x.2.created) ∧
      FIFOProcessStorage.add true s p =
        some (.REMOVED_OLDEST,
          ⟨s.capacity, s.storage.filter (fun x => x.1 != v.1) ++ [(p.pid, p)]⟩,
          [v.1]) ∧
      (s.storage.filter (fun x => x.1 != v.1)).length + 1 = s.storage.length := by
  obtain ⟨cap, store⟩ := s
  simp only at hcap hfull hcons hnd hfresh
  cases store with
  | nil =>
    simp at hfull
    omega
  | cons kv rest =>
    have hvm : minByKey (fun x => x.2.created) kv rest ∈ kv :: rest :=
      minByKey_mem _ kv rest
    have hvmin := minByKey_le (fun x => x.2.created) kv rest
    have hvpid : (minByKey (fun x => x.2.created) kv rest).1 =
        (minByKey (fun x => x.2.created) kv rest).2.pid := hcons _ hvm
    have hvkey : (minByKey (fun x => x.2.created) kv rest).2.pid ∈
        (kv :: rest).map Prod.fst := by
      rw [← hvpid]
      exact List.mem_map.2 ⟨_, hvm, rfl⟩
    have hadd : ProcessStorage.add ⟨cap, kv :: rest⟩ p = (.FULL, ⟨cap, kv :: rest⟩) :=
      add_of_full p (le_of_eq hfull.symm)
    have hkill : killEffect true ⟨cap, kv :: rest⟩ (minByKey (fun x => x.2.created) kv rest).2 =
        ⟨cap, (kv :: rest).filter
          (fun x => x.1 != (minByKey (fun x => x.2.created) kv rest).2.pid)⟩ := by
      simp only [killEffect]
      rw [if_pos trivial]
      simp only [ProcessStorage.remove]
      rw [if_pos hvkey]
    have hlen2 : ((kv :: rest).filter
        (fun x => x.1 != (minByKey (fun x => x.2.created) kv rest).2.pid)).length + 1 =
        (kv :: rest).length :=
      filter_ne_key_length hnd hvkey
    have hfresh2 : p.pid ∉ ((kv :: rest).filter
        (fun x => x.1 != (minByKey (fun x => x.2.created) kv rest).2.pid)).map Prod.fst := by
      intro hmem
      apply hfresh
      obtain ⟨x, hx, hxe⟩ := List.mem_map.1 hmem
      exact List.mem_map.2 ⟨x, (List.mem_filter.1 hx).1, hxe⟩
    have hroom2 : ((kv :: rest).filter
        (fun x => x.1 != (minByKey (fun x => x.2.created) kv rest).2.pid)).length < cap := by
      simp only [List.length_cons] at hlen2 hfull
      omega
    have hretry := add_of_fresh
      (s := ⟨cap, (kv :: rest).filter
        (fun x => x.1 != (minByKey (fun x => x.2.created) kv rest).2.pid)⟩)
      (p := p) hroom2 hfresh2
    refine ⟨minByKey (fun x => x.2.created) kv rest, hvm, hvmin, ?_, ?_⟩
    · rw [hvpid]
      simp only [FIFOProcessStorage.add, hadd]
      simp only [ne_eq, not_true_eq_false, if_false]
      simp only [hkill, hretry]
      simp [hvpid]
    · rw [hvpid]
      exact hlen2

/-- With pairwise-distinct pids, the process added at step `i` is not yet
stored. -/
theorem fifoState_fresh (C : Nat) (ps : List Proc)
    (hnd : (ps.map Proc.pid).Nodup) (i : Nat) (hi : i < ps.length)
    (hsub : ∀ k ∈ (fifoState C ps i).storage.map Prod.fst,
      k ∈ (ps.take i).map Proc.pid) :
    ps[i].pid ∉ (fifoState C ps i).storage.map Prod.fst := by
  intro hmem
  have hi2 : i < (ps.map Proc.pid).length := by simpa using hi
  have h1 := hsub _ hmem
  rw [List.map_take] at h1
  have h2 : (ps.map Proc.pid)[i] ∈ (ps.map Proc.pid).take i := by
    have hpe : (ps.map Proc.pid)[i] = ps[i].pid := by simp
    rw [hpe]
    exact h1
  exact nodup_getElem_not_mem_take hnd hi2 h2

/-- Invariants of a wired FIFO run over pairwise-distinct pids: capacity
stays `C`, the size is `min i C`, every key equals its record's pid, all
stored keys come from the first `i` processes, and the keys are pairwise
distinct. -/
theorem fifoState_inv (C : Nat) (ps : List Proc) (hC : 1 ≤ C)
    (hnd : (ps.map Proc.pid).Nodup) :
    ∀ i, i ≤ ps.length →
      (fifoState C ps i).capacity = C ∧
      (fifoState C ps i).storage.length = min i C ∧
      (∀ kv ∈ (fifoState C ps i).storage, kv.1 = kv.2.pid) ∧
      (∀ k ∈ (fifoState C ps i).storage.map Prod.fst,
        k ∈ (ps.take i).map Proc.pid) ∧
      ((fifoState C ps i).storage.map Prod.fst).Nodup := by
  intro i
  induction i with
  | zero =>
    intro _
    refine ⟨rfl, ?_, ?_, ?_, ?_⟩ <;> simp [fifoState, runOps, ProcessStorage.empty]
  | succ i ih =>
    intro hi1
    have hi : i < ps.length := Nat.lt_of_succ_le hi1
    obtain ⟨hcap, hlen, hcons, hsub, hndk⟩ := ih (le_of_lt hi)
    have hfresh := fifoState_fresh C ps hnd i hi hsub
    have htake : ps.take (i + 1) = ps.take i ++ [ps[i]] := by
      rw [List.take_succ, List.getElem?_eq_getElem hi]
      rfl
    rw [fifoState_succ C ps i hi]
    by_cases hroom : i < C
    · have hroom2 : (fifoState C ps i).storage.length <
          (fifoState C ps i).capacity := by
        rw [hcap, hlen]
        omega
      have hp := fifoAdd_pass true (fifoState C ps i) ps[i] hroom2 hfresh
      simp only [applyOp, policyAdd, hp]
      refine ⟨hcap, ?_, ?_, ?_, ?_⟩
      · simp only [List.length_append, List.length_cons, List.length_nil]
        rw [hlen]
        omega
      · intro kv hkv
        rcases List.mem_append.1 hkv with h | h
        · exact hcons kv h
        · simp at h
          rw [h]
      · intro k hk
        rw [List.map_append] at hk
        rw [htake, List.map_append]
        rcases List.mem_append.1 hk with h | h
        · exact List.mem_append.2 (Or.inl (hsub _ h))
        · simp at h
          simp [h]
      · rw [List.map_append]
        refine List.Nodup.append hndk (by simp) ?_
        intro a ha hb
        simp at hb
        subst hb
        exact hfresh ha
    · push_neg at hroom
      have hfull : (fifoState C ps i).storage.length =
          (fifoState C ps i).capacity := by
        rw [hcap, hlen]
        omega
      have hcap1 : 1 ≤ (fifoState C ps i).capacity := by
        rw [hcap]
        exact hC
      obtain ⟨v, hvm, hvmin, heq, hlen2⟩ :=
        fifoAdd_full_step (fifoState C ps i) ps[i] hcap1 hfull hcons hndk hfresh
      simp only [applyOp, policyAdd, heq]
      have hfilsub : ∀ x ∈ (fifoState C ps i).storage.filter (fun x => x.1 != v.1),
          x ∈ (fifoState C ps i).storage := by
        intro x hx
        exact (List.mem_filter.1 hx).1
      have hfilkeys : ∀ k ∈ ((fifoState C ps i).storage.filter
          (fun x => x.1 != v.1)).map Prod.fst,
          k ∈ (fifoState C ps i).storage.map Prod.fst := by
        intro k hk
        obtain ⟨x, hx, hxe⟩ := List.mem_map.1 hk
        exact List.mem_map.2 ⟨x, hfilsub x hx, hxe⟩
      refine ⟨hcap, ?_, ?_, ?_, ?_⟩
      · simp only [List.length_append, List.length_cons, List.length_nil]
        rw [hlen] at hlen2
        omega
      · intro kv hkv
        rcases List.mem_append.1 hkv with h | h
        · exact hcons kv (hfilsub kv h)
        · simp at h
          rw [h]
      · intro k hk
        rw [List.map_append] at hk
        rw [htake, List.map_append]
        rcases List.mem_append.1 hk with h | h
        · exact List.mem_append.2 (Or.inl (hsub _ (hfilkeys _ h)))
        · simp at h
          simp [h]
      · rw [List.map_append]
        refine List.Nodup.append ?_ (by simp) ?_
        · exact List.Nodup.sublist ((List.filter_sublist _).map Prod.fst) hndk
        · intro a ha hb
          simp at hb
          subst hb
          exact hfresh (hfilkeys _ ha)

/-- C2: on a wired FIFO storage of capacity `C ≥ 1` (every stored record's
termination handler removes it from this same storage, as the registry
binds it) fed a sequence of adds with pairwise-distinct pids: the size
after `j` adds is `min j C` — so it never exceeds `C` and stays exactly
`C` once reached — and every add after the first `C` selects as victim a
stored record of minimal `createdAt`, invokes its termination handler
(the kill list is exactly the victim's pid), removes it, appends the new
record, and returns the replacement outcome (source name REMOVED_OLDEST
for the spec's REPLACED_OLDEST). -/
theorem fifo_always_accepts (C : Nat) (ps : List Proc) (hC : 1 ≤ C)
    (hnd : (ps.map Proc.pid).Nodup) :
    (∀ j, j ≤ ps.length → (fifoState C ps j).storage.length = min j C) ∧
    (∀ i, C ≤ i → ∀ hi : i < ps.length,
      ∃ v ∈ (fifoState C ps i).storage,
        (∀ x ∈ (fifoState C ps i).storage, v.2.created ≤ x.2.created) ∧
        FIFOProcessStorage.add true (fifoState C ps i) ps[i] =
          some (.REMOVED_OLDEST,
            ⟨C, (fifoState C ps i).storage.filter (fun x => x.1 != v.1) ++
              [(ps[i].pid, ps[i])]⟩,
            [v.1])) := by
  constructor
  · intro j hj
    exact (fifoState_inv C ps hC hnd j hj).2.1
  · intro i hCi hi
    obtain ⟨hcap, hlen, hcons, hsub, hndk⟩ :=
      fifoState_inv C ps hC hnd i (le_of_lt hi)
    have hfresh := fifoState_fresh C ps hnd i hi hsub
    have hfull : (fifoState C ps i).storage.length =
        (fifoState C ps i).capacity := by
      rw [hcap, hlen]
      omega
    have hcap1 : 1 ≤ (fifoState C ps i).capacity := by
      rw [hcap]
      exact hC
    obtain ⟨v, hvm, hvmin, heq, _⟩ :=
      fifoAdd_full_step (fifoState C ps i) ps[i] hcap1 hfull hcons hndk hfresh
    refine ⟨v, hvm, hvmin, ?_⟩
    rw [heq, hcap]

/-- Witness for C2: with capacity 1 and the two distinct processes
pid 1 and pid 2, the size after both adds is `min 2 1 = 1`. -/
theorem fifo_always_accepts_witness :
    (fifoState 1 [pLow1, pLow2] 2).storage.length = min 2 1 :=
  (fifo_always_accepts 1 [pLow1, pLow2] (by decide) (by decide)).1 2 (by decide)
